import Mathlib

set_option linter.unusedVariables false

/-!
Verification development for the FogNetOptimizer repository: a shallow
embedding of the fog-node pipeline (`src/fog_node/src/fog_node.py`) and of
the cloud-node aggregator (`src/cloud_node/src/cloud_node.py`), together
with theorems about the embedded functions.  Python floats are modelled as
rationals, byte strings as lists of naturals, dictionaries as structures,
and the empty dictionary returned on an empty record list as `none`.
-/

/-- A performance record as assembled by the fog node in
`process_sliding_window` (step 8) and accumulated by the cloud node in
`performance_records`.  All numeric fields are modelled as rationals. -/
structure PerfRecord where
  total_mutual_info : ℚ
  total_bandwidth : ℚ
  total_latency : ℚ
  total_energy : ℚ
  successful_transmissions : ℚ
  total_transmissions : ℚ
  time_steps : ℚ
deriving DecidableEq

/-- The aggregated metrics dictionary produced by
`compute_performance_metrics` when at least one record is present. -/
structure AggMetrics where
  bandwidth_utilization_efficiency : ℚ
  average_latency : ℚ
  total_energy : ℚ
  transmission_reliability : ℚ
  throughput : ℚ
deriving DecidableEq

/-- Embedding of `compute_performance_metrics` (cloud_node.py, lines 29-64).
An empty accumulated list returns the empty dictionary, modelled as `none`;
otherwise each ratio metric is guarded by a strict positivity test on its
denominator and floored to `0` when the test fails. -/
def compute_performance_metrics (records : List PerfRecord) : Option AggMetrics :=
  if records = [] then none
  else
    let total_mutual_info := (records.map PerfRecord.total_mutual_info).sum
    let total_bandwidth := (records.map PerfRecord.total_bandwidth).sum
    let total_latency := (records.map PerfRecord.total_latency).sum
    let total_energy := (records.map PerfRecord.total_energy).sum
    let successful_tx := (records.map PerfRecord.successful_transmissions).sum
    let total_tx := (records.map PerfRecord.total_transmissions).sum
    let total_time := (records.map PerfRecord.time_steps).sum
    some
      { bandwidth_utilization_efficiency :=
          if 0 < total_bandwidth then total_mutual_info / total_bandwidth else 0
        average_latency := if 0 < total_tx then total_latency / total_tx else 0
        total_energy := total_energy
        transmission_reliability := if 0 < total_tx then successful_tx / total_tx else 0
        throughput := if 0 < total_time then total_mutual_info / total_time else 0 }

/-- AR(3) coefficients `self.ar_params = [0.5, 0.3, 0.2]` (fog_node.py). -/
def ar_params : List ℚ := [1/2, 3/10, 1/5]

/-- AR(3) constant `self.ar_const = 0.1` (fog_node.py). -/
def ar_const : ℚ := 1/10

/-- AR(1) coefficient `self.ar_a = 0.9` (fog_node.py). -/
def ar_a : ℚ := 9/10

/-- AR(1) constant `self.ar_b = 0.1` (fog_node.py). -/
def ar_b : ℚ := 1/10

/-- Entropy forecast of `process_sliding_window` step 4 (fog_node.py,
lines 150-161).  The current window entropy has already been appended to
`entropy_history`, so `history` ends with it; with at least three entries
the AR(3) model is used, otherwise the AR(1) fallback on the current
entropy. -/
def predictEntropy (history : List ℚ) : ℚ :=
  if 3 ≤ history.length then
    ar_params.getD 0 0 * history.getD (history.length - 1) 0 +
      ar_params.getD 1 0 * history.getD (history.length - 2) 0 +
      ar_params.getD 2 0 * history.getD (history.length - 3) 0 + ar_const
  else
    ar_a * history.getD (history.length - 1) 0 + ar_b

/-- The entropy history after the fog has processed `k` windows whose window
entropies are listed in `entropies` is `entropies.take k` (the fog appends
each window's entropy at line 148), so the forecast issued with the
`k`-th window is `predictEntropy` of that prefix. -/
def forecastAfter (entropies : List ℚ) (k : ℕ) : ℚ :=
  predictEntropy (entropies.take k)

/-- Threshold `self.H_low = 4.0` (fog_node.py). -/
def H_low : ℚ := 4

/-- Threshold `self.H_med = 6.0` (fog_node.py). -/
def H_med : ℚ := 6

/-- Embedding of `FogNode.decide_coding_parameters` (fog_node.py,
lines 231-246): the coding scheme and degree are chosen from the current
entropy alone. -/
def decide_coding_parameters (entropy : ℚ) : String × ℕ :=
  if entropy < H_low then ("Simple", 2)
  else if entropy < H_med then ("Fountain", 4)
  else ("RLNC", 6)

/-- The feedback directive built by the cloud node (`handle_connection`,
cloud_node.py lines 127-133). -/
structure Feedback where
  adjust_dt : Int
  message : String
deriving DecidableEq

/-- The cloud's feedback as a function of the aggregated
bandwidth-utilization efficiency: `adjust_dt = -1` below `0.5`, else `+1`
(cloud_node.py, lines 128-133). -/
def cloudFeedback (eta_bw : ℚ) : Feedback :=
  if eta_bw < 1/2 then
    ⟨-1, "Low bandwidth efficiency detected, consider reducing coding degree."⟩
  else
    ⟨1, "Bandwidth efficiency is satisfactory, consider increasing coding degree."⟩

/-- The fog-node state that persists across windows and is relevant to
coding decisions: `self.entropy_history`, `self.coding_scheme`,
`self.coding_degree`. -/
structure FogState where
  entropy_history : List ℚ
  coding_scheme : String
  coding_degree : ℕ
deriving DecidableEq

/-- State change of one `process_sliding_window` call, at the level of the
window entropy: the entropy is appended to the history (line 148) and the
coding parameters are recomputed from the current entropy alone (line 165,
via `decide_coding_parameters`).  The cloud response received at line 221
is only logged (lines 222-225), never parsed or applied, so it is an input
on which the new state does not depend. -/
def processWindowUpdate (s : FogState) (currentEntropy : ℚ)
    (response : Option Feedback) : FogState :=
  { entropy_history := s.entropy_history ++ [currentEntropy]
    coding_scheme := (decide_coding_parameters currentEntropy).1
    coding_degree := (decide_coding_parameters currentEntropy).2 }

/-- C10: on an empty accumulated record list, `compute_performance_metrics`
returns the empty dictionary (modelled as `none`), so none of the five
metric fields is present. -/
theorem compute_performance_metrics_empty :
    compute_performance_metrics [] = none := rfl

/-- C8: `compute_performance_metrics` is total on every non-empty record
list: it always returns a metrics record, any ratio whose denominator sums
to zero is floored to the numeric value `0`, and the remaining metrics
(here the unconditional `total_energy`) are unaffected. -/
theorem compute_performance_metrics_total (records : List PerfRecord)
    (hne : records ≠ []) :
    ∃ m, compute_performance_metrics records = some m ∧
      ((records.map PerfRecord.total_bandwidth).sum = 0 →
        m.bandwidth_utilization_efficiency = 0) ∧
      ((records.map PerfRecord.total_transmissions).sum = 0 →
        m.average_latency = 0 ∧ m.transmission_reliability = 0) ∧
      ((records.map PerfRecord.time_steps).sum = 0 → m.throughput = 0) ∧
      m.total_energy = (records.map PerfRecord.total_energy).sum := by
  unfold compute_performance_metrics
  rw [if_neg hne]
  refine ⟨_, rfl, ?_, ?_, ?_, rfl⟩
  · intro h; simp [h]
  · intro h; constructor <;> simp [h]
  · intro h; simp [h]

/-- Witness for C8 at a concrete input: one record all of whose fields are
zero, so that every denominator is zero. -/
theorem compute_performance_metrics_total_witness :
    ([⟨0, 0, 0, 0, 0, 0, 0⟩] : List PerfRecord) ≠ [] ∧
    ∃ m, compute_performance_metrics [⟨0, 0, 0, 0, 0, 0, 0⟩] = some m ∧
      (([(⟨0, 0, 0, 0, 0, 0, 0⟩ : PerfRecord)].map PerfRecord.total_bandwidth).sum = 0 →
        m.bandwidth_utilization_efficiency = 0) ∧
      (([(⟨0, 0, 0, 0, 0, 0, 0⟩ : PerfRecord)].map PerfRecord.total_transmissions).sum = 0 →
        m.average_latency = 0 ∧ m.transmission_reliability = 0) ∧
      (([(⟨0, 0, 0, 0, 0, 0, 0⟩ : PerfRecord)].map PerfRecord.time_steps).sum = 0 →
        m.throughput = 0) ∧
      m.total_energy = ([(⟨0, 0, 0, 0, 0, 0, 0⟩ : PerfRecord)].map PerfRecord.total_energy).sum :=
  ⟨by decide, compute_performance_metrics_total _ (by decide)⟩

/-- C9: if every accumulated record comes from the fog's metrics assembler,
which sets `successful_transmissions = total_transmissions = W` for the
window size `W > 0` (fog_node.py, lines 193-194), then the aggregated
`transmission_reliability` equals `1`. -/
theorem transmission_reliability_one (records : List PerfRecord)
    (hne : records ≠ [])
    (hfog : ∀ r ∈ records, ∃ W : ℕ, 0 < W ∧
      r.successful_transmissions = (W : ℚ) ∧ r.total_transmissions = (W : ℚ)) :
    ∃ m, compute_performance_metrics records = some m ∧
      m.transmission_reliability = 1 := by
  unfold compute_performance_metrics
  rw [if_neg hne]
  refine ⟨_, rfl, ?_⟩
  have hsucc : (records.map PerfRecord.successful_transmissions).sum =
      (records.map PerfRecord.total_transmissions).sum := by
    have : records.map PerfRecord.successful_transmissions =
        records.map PerfRecord.total_transmissions := by
      refine List.map_congr_left ?_
      intro r hr
      obtain ⟨W, _, hs, ht⟩ := hfog r hr
      rw [hs, ht]
    rw [this]
  have hpos : 0 < (records.map PerfRecord.total_transmissions).sum := by
    refine List.sum_pos _ ?_ (by simpa using hne)
    intro x hx
    obtain ⟨r, hr, hrx⟩ := List.mem_map.mp hx
    obtain ⟨W, hW, _, ht⟩ := hfog r hr
    rw [← hrx, ht]
    exact_mod_cast hW
  simp only [if_pos hpos, hsucc]
  exact div_self (ne_of_gt hpos)

/-- Witness for C9 at a concrete input: two fog records with window size
`W = 3`. -/
theorem transmission_reliability_one_witness :
    ([(⟨10, 20, 1, 1, 3, 3, 3/2⟩ : PerfRecord)] : List PerfRecord) ≠ [] ∧
    (∀ r ∈ [(⟨10, 20, 1, 1, 3, 3, 3/2⟩ : PerfRecord)], ∃ W : ℕ, 0 < W ∧
      r.successful_transmissions = (W : ℚ) ∧ r.total_transmissions = (W : ℚ)) ∧
    ∃ m, compute_performance_metrics [⟨10, 20, 1, 1, 3, 3, 3/2⟩] = some m ∧
      m.transmission_reliability = 1 := by
  refine ⟨by decide, ?_, transmission_reliability_one _ (by decide) ?_⟩ <;>
  · intro r hr
    refine ⟨3, by decide, ?_, ?_⟩ <;>
    · rcases List.mem_singleton.mp hr with rfl
      norm_num

/-- C4 counterexample: with window entropies `2, 5, 7.5`, the forecast
issued with the third window is `0.5·7.5 + 0.3·5 + 0.2·2 + 0.1 = 5.75 =
23/4`, which is not the value `5.85 = 117/20` stated by the claim. -/
theorem ar3_forecast_counterexample :
    forecastAfter [2, 5, 15/2] 3 = 23/4 ∧ (23/4 : ℚ) ≠ 117/20 := by
  constructor
  · norm_num [forecastAfter, predictEntropy, ar_params, ar_const]
  · norm_num

/-- C4 (amended): with window entropies `2, 5, 7.5`, the first two
forecasts use the AR(1) fallback (history shorter than three), giving
`0.9·2 + 0.1 = 1.9` and `0.9·5 + 0.1 = 4.6`, and the third forecast uses
the AR(3) model, giving `0.5·7.5 + 0.3·5 + 0.2·2 + 0.1 = 5.75`. -/
theorem ar3_forecast_values :
    forecastAfter [2, 5, 15/2] 1 = ar_a * 2 + ar_b ∧
    forecastAfter [2, 5, 15/2] 1 = 19/10 ∧
    forecastAfter [2, 5, 15/2] 2 = ar_a * 5 + ar_b ∧
    forecastAfter [2, 5, 15/2] 2 = 23/5 ∧
    forecastAfter [2, 5, 15/2] 3 =
      ar_params.getD 0 0 * (15/2) + ar_params.getD 1 0 * 5 +
        ar_params.getD 2 0 * 2 + ar_const ∧
    forecastAfter [2, 5, 15/2] 3 = 23/4 := by
  refine ⟨?_, ?_, ?_, ?_, ?_, ?_⟩ <;>
    norm_num [forecastAfter, predictEntropy, ar_params, ar_const, ar_a, ar_b]

/-- C2 counterexample: two cloud directives carrying `adjust_dt = -1` and
`adjust_dt = +1` lead to the very same fog state for the next window, and
from a state with coding degree `4` the directive `adjust_dt = -1` is
followed by degree `6` (entropy `7` is above `H_med`), so the received
`adjust_dt` is not applied to the fog's coding degree. -/
theorem feedback_adjust_dt_counterexample :
    (cloudFeedback (1/4)).adjust_dt = -1 ∧ (cloudFeedback 1).adjust_dt = 1 ∧
    processWindowUpdate ⟨[2, 5], "Fountain", 4⟩ 7 (some (cloudFeedback (1/4))) =
      processWindowUpdate ⟨[2, 5], "Fountain", 4⟩ 7 (some (cloudFeedback 1)) ∧
    (processWindowUpdate ⟨[2, 5], "Fountain", 4⟩ 7
      (some (cloudFeedback (1/4)))).coding_degree = 6 := by
  refine ⟨?_, ?_, rfl, ?_⟩ <;>
    norm_num [cloudFeedback, processWindowUpdate, decide_coding_parameters, H_low, H_med]

/-- C2 (amended): the cloud does compute and send a directive whose
`adjust_dt` is `-1` or `+1`, but the fog only logs the response: the state
used for subsequent windows is independent of the received feedback, and
the coding degree is determined solely by the window entropy through the
thresholds of `decide_coding_parameters`. -/
theorem processWindowUpdate_ignores_feedback (s : FogState) (e : ℚ)
    (r1 r2 : Option Feedback) :
    processWindowUpdate s e r1 = processWindowUpdate s e r2 ∧
    (processWindowUpdate s e r1).coding_degree = (decide_coding_parameters e).2 :=
  ⟨rfl, rfl⟩

/-- ASCII bytes of the literal response `b"FormatError"` (cloud_node.py,
line 104). -/
def formatErrorBytes : List ℕ := [70, 111, 114, 109, 97, 116, 69, 114, 114, 111, 114]

/-- Index of the first occurrence of the two-byte separator `b"||"`
(byte `124` twice) in a byte string, if any. -/
def findSep : List ℕ → Option ℕ
  | a :: b :: rest =>
    if a = 124 ∧ b = 124 then some 0
    else (findSep (b :: rest)).map (· + 1)
  | _ => none

theorem findSep_bound : ∀ (data : List ℕ) (i : ℕ),
    findSep data = some i → i + 2 ≤ data.length
  | [], i, h => by simp [findSep] at h
  | [a], i, h => by simp [findSep] at h
  | a :: b :: rest, i, h => by
    by_cases hab : a = 124 ∧ b = 124
    · simp [findSep, hab] at h
      simp [List.length_cons]
      omega
    · simp [findSep, hab] at h
      obtain ⟨j, hj, rfl⟩ := h
      have := findSep_bound (b :: rest) j hj
      simp [List.length_cons] at this ⊢
      omega

/-- Embedding of Python `data.split(b"||")` for the two-byte separator:
cut at each leftmost, non-overlapping occurrence. -/
def splitSep (data : List ℕ) : List (List ℕ) :=
  match h : findSep data with
  | none => [data]
  | some i => data.take i :: splitSep (data.drop (i + 2))
termination_by data.length
decreasing_by
  have := findSep_bound data i h
  simp [List.length_drop]
  omega

/-- Outcome of one `CloudNode.handle_connection` call, at the level of the
framing logic: the connection is closed without an answer on empty data; a
response byte string is sent on a malformed frame; an exception escaping to
the outer handler (cloud_node.py, lines 140-143) is only logged, closing
the connection with no response and no record; on a well-formed frame the
encoded payload and the decoded metadata text are extracted and a
performance record is appended. -/
inductive ConnOutcome where
  | closedNoData : ConnOutcome
  | errorResponse (resp : List ℕ) : ConnOutcome
  | exceptionAbort : ConnOutcome
  | ok (encoded_data : List ℕ) (info_str : List ℕ) : ConnOutcome
deriving DecidableEq

/-- `lo ≤ b ≤ hi` as a Boolean byte-range test. -/
def byteInRange (lo hi b : ℕ) : Bool := decide (lo ≤ b ∧ b ≤ hi)

/-- Whether a byte string is valid strict UTF-8, as checked by Python's
`bytes.decode()` at cloud_node.py, line 109 (RFC 3629: continuation ranges
per leading byte, no overlong forms, no surrogates, code points at most
U+10FFFF). -/
def isValidUtf8 : List ℕ → Bool
  | [] => true
  | b :: rest =>
    if b ≤ 127 then isValidUtf8 rest
    else if byteInRange 194 223 b then
      match rest with
      | c1 :: rest2 => byteInRange 128 191 c1 && isValidUtf8 rest2
      | [] => false
    else if b = 224 then
      match rest with
      | c1 :: c2 :: rest2 =>
        byteInRange 160 191 c1 && byteInRange 128 191 c2 && isValidUtf8 rest2
      | _ => false
    else if byteInRange 225 236 b then
      match rest with
      | c1 :: c2 :: rest2 =>
        byteInRange 128 191 c1 && byteInRange 128 191 c2 && isValidUtf8 rest2
      | _ => false
    else if b = 237 then
      match rest with
      | c1 :: c2 :: rest2 =>
        byteInRange 128 159 c1 && byteInRange 128 191 c2 && isValidUtf8 rest2
      | _ => false
    else if byteInRange 238 239 b then
      match rest with
      | c1 :: c2 :: rest2 =>
        byteInRange 128 191 c1 && byteInRange 128 191 c2 && isValidUtf8 rest2
      | _ => false
    else if b = 240 then
      match rest with
      | c1 :: c2 :: c3 :: rest2 =>
        byteInRange 144 191 c1 && byteInRange 128 191 c2 && byteInRange 128 191 c3 &&
          isValidUtf8 rest2
      | _ => false
    else if byteInRange 241 243 b then
      match rest with
      | c1 :: c2 :: c3 :: rest2 =>
        byteInRange 128 191 c1 && byteInRange 128 191 c2 && byteInRange 128 191 c3 &&
          isValidUtf8 rest2
      | _ => false
    else if b = 244 then
      match rest with
      | c1 :: c2 :: c3 :: rest2 =>
        byteInRange 128 143 c1 && byteInRange 128 191 c2 && byteInRange 128 191 c3 &&
          isValidUtf8 rest2
      | _ => false
    else false

/-- Embedding of the framing part of `CloudNode.handle_connection`
(cloud_node.py, lines 93-119): empty data closes the connection; otherwise
the frame is split on `b"||"`; fewer than two parts answer the literal
bytes `b"FormatError"` and append nothing; otherwise `parts[0]` is the
encoded payload and `parts[1].decode()` the metadata text.  The `decode()`
at line 109 runs outside the inner `try`, so on metadata bytes that are
not valid UTF-8 the `UnicodeDecodeError` escapes to the outer handler
(lines 140-143), which aborts with no response and no record. -/
def handle_connection (data : List ℕ) : ConnOutcome :=
  if data = [] then .closedNoData
  else
    match splitSep data with
    | p0 :: p1 :: _ => if isValidUtf8 p1 then .ok p0 p1 else .exceptionAbort
    | _ => .errorResponse formatErrorBytes

/-- Whether `handle_connection` reaches the append to `performance_records`
(cloud_node.py, line 119: only on the `ok` path; the decode failure at
line 109 aborts before the append). -/
def appendsRecord : ConnOutcome → Bool
  | .ok _ _ => true
  | _ => false

/-- The two-byte separator occurs in `data` at position `j`. -/
def sepAt (data : List ℕ) (j : ℕ) : Prop :=
  j + 2 ≤ data.length ∧ data.getD j 0 = 124 ∧ data.getD (j + 1) 0 = 124

theorem sepAt_cons_succ (a : ℕ) (l : List ℕ) (j : ℕ) :
    sepAt (a :: l) (j + 1) ↔ sepAt l j := by
  simp only [sepAt, List.getD_cons_succ, List.length_cons]
  constructor <;> rintro ⟨h1, h2, h3⟩ <;> exact ⟨by omega, h2, h3⟩

theorem findSep_none_sound : ∀ (data : List ℕ), findSep data = none →
    ∀ j, ¬ sepAt data j
  | [], _, j => by simp [sepAt]
  | [a], _, j => by simp [sepAt]
  | a :: b :: rest, h, j => by
    by_cases hab : a = 124 ∧ b = 124
    · simp [findSep, hab] at h
    · simp [findSep, hab] at h
      cases j with
      | zero =>
        rintro ⟨_, h1, h2⟩
        exact hab ⟨h1, h2⟩
      | succ k =>
        rw [sepAt_cons_succ]
        exact findSep_none_sound (b :: rest) h k

theorem findSep_some_sound : ∀ (data : List ℕ) (i : ℕ), findSep data = some i →
    sepAt data i ∧ ∀ j, j < i → ¬ sepAt data j
  | [], i, h => by simp [findSep] at h
  | [a], i, h => by simp [findSep] at h
  | a :: b :: rest, i, h => by
    by_cases hab : a = 124 ∧ b = 124
    · simp [findSep, hab] at h
      refine ⟨?_, ?_⟩
      · rw [← h]
        exact ⟨by simp [List.length_cons], hab.1, hab.2⟩
      · intro j hj
        omega
    · simp [findSep, hab] at h
      obtain ⟨k, hk, rfl⟩ := h
      obtain ⟨h1, h2⟩ := findSep_some_sound (b :: rest) k hk
      refine ⟨(sepAt_cons_succ a (b :: rest) k).mpr h1, ?_⟩
      intro j hj
      cases j with
      | zero =>
        rintro ⟨_, g1, g2⟩
        exact hab ⟨g1, g2⟩
      | succ m =>
        rw [sepAt_cons_succ]
        exact h2 m (by omega)

theorem splitSep_of_none (data : List ℕ) (h : findSep data = none) :
    splitSep data = [data] := by
  rw [splitSep.eq_def, h]

theorem splitSep_of_some (data : List ℕ) (i : ℕ) (h : findSep data = some i) :
    splitSep data = data.take i :: splitSep (data.drop (i + 2)) := by
  rw [splitSep.eq_def, h]

/-- C3 counterexample: the frame `b"ab||cd||ef"` contains the separator
twice; the code takes `parts[1]` of the full split, so the metadata text is
`b"cd"` and not all the bytes `b"cd||ef"` after the first occurrence. -/
theorem handle_connection_counterexample :
    handle_connection [97, 98, 124, 124, 99, 100, 124, 124, 101, 102] =
      ConnOutcome.ok [97, 98] [99, 100] ∧
    ([99, 100] : List ℕ) ≠ [99, 100, 124, 124, 101, 102] := by
  constructor
  · have h1 : findSep [97, 98, 124, 124, 99, 100, 124, 124, 101, 102] = some 2 := by
      simp [findSep]
    have h2 : findSep [99, 100, 124, 124, 101, 102] = some 2 := by
      simp [findSep]
    have hval : isValidUtf8 [99, 100] = true := by decide
    rw [handle_connection]
    rw [if_neg (by simp)]
    rw [splitSep_of_some _ _ h1]
    norm_num
    rw [splitSep_of_some _ _ h2]
    norm_num [hval]
  · simp

/-- C3 (amended): for every non-empty frame, the encoded payload is the
bytes before the first occurrence of the two-byte separator, and the
metadata segment `parts[1]` is the bytes strictly between the first and
the second occurrence (all the bytes after the first occurrence only when
no second occurrence exists); if that segment is valid UTF-8 the handler
succeeds and appends a record, and if it is not, the decode at line 109
raises and the handler aborts with no response and no record; a frame
containing no occurrence of the separator is answered with exactly the
literal bytes `b"FormatError"` and appends no performance record. -/
theorem handle_connection_split (data : List ℕ) (hne : data ≠ []) :
    (findSep data = none →
      (∀ j, ¬ sepAt data j) ∧
      handle_connection data = ConnOutcome.errorResponse formatErrorBytes ∧
      appendsRecord (handle_connection data) = false) ∧
    (∀ i, findSep data = some i →
      sepAt data i ∧ (∀ j, j < i → ¬ sepAt data j) ∧
      ∃ meta, meta = (match findSep (data.drop (i + 2)) with
          | none => data.drop (i + 2)
          | some k => (data.drop (i + 2)).take k) ∧
        (isValidUtf8 meta = true →
          handle_connection data = ConnOutcome.ok (data.take i) meta ∧
          appendsRecord (handle_connection data) = true) ∧
        (isValidUtf8 meta = false →
          handle_connection data = ConnOutcome.exceptionAbort ∧
          appendsRecord (handle_connection data) = false)) := by
  constructor
  · intro h
    have hmain : handle_connection data = ConnOutcome.errorResponse formatErrorBytes := by
      rw [handle_connection, if_neg hne, splitSep_of_none data h]
    exact ⟨findSep_none_sound data h, hmain, by rw [hmain]; rfl⟩
  · intro i h
    obtain ⟨h1, h2⟩ := findSep_some_sound data i h
    have hsplit := splitSep_of_some data i h
    rcases heq : findSep (data.drop (i + 2)) with _ | k
    · have hrest := splitSep_of_none _ heq
      refine ⟨h1, h2, data.drop (i + 2), rfl, ?_, ?_⟩
      · intro hval
        have hmain : handle_connection data =
            ConnOutcome.ok (data.take i) (data.drop (i + 2)) := by
          rw [handle_connection, if_neg hne, hsplit, hrest]
          simp [hval]
        exact ⟨hmain, by rw [hmain]; rfl⟩
      · intro hval
        have hmain : handle_connection data = ConnOutcome.exceptionAbort := by
          rw [handle_connection, if_neg hne, hsplit, hrest]
          simp [hval]
        exact ⟨hmain, by rw [hmain]; rfl⟩
    · have hrest := splitSep_of_some _ k heq
      refine ⟨h1, h2, (data.drop (i + 2)).take k, rfl, ?_, ?_⟩
      · intro hval
        have hmain : handle_connection data =
            ConnOutcome.ok (data.take i) ((data.drop (i + 2)).take k) := by
          rw [handle_connection, if_neg hne, hsplit, hrest]
          simp [hval]
        exact ⟨hmain, by rw [hmain]; rfl⟩
      · intro hval
        have hmain : handle_connection data = ConnOutcome.exceptionAbort := by
          rw [handle_connection, if_neg hne, hsplit, hrest]
          simp [hval]
        exact ⟨hmain, by rw [hmain]; rfl⟩

/-- Witness for C3 (amended) at two concrete inputs: the frame `b"a||b"`,
whose metadata `b"b"` is valid UTF-8, succeeds and appends a record; the
frame `b"ab||\xff"`, whose metadata byte `0xff` is not valid UTF-8, aborts
with no record. -/
theorem handle_connection_split_witness :
    ([97, 124, 124, 98] : List ℕ) ≠ [] ∧
    findSep [97, 124, 124, 98] = some 1 ∧
    sepAt [97, 124, 124, 98] 1 ∧
    isValidUtf8 [98] = true ∧
    handle_connection [97, 124, 124, 98] =
      ConnOutcome.ok ([97, 124, 124, 98].take 1) [98] ∧
    appendsRecord (handle_connection [97, 124, 124, 98]) = true ∧
    ([97, 98, 124, 124, 255] : List ℕ) ≠ [] ∧
    findSep [97, 98, 124, 124, 255] = some 2 ∧
    isValidUtf8 [255] = false ∧
    handle_connection [97, 98, 124, 124, 255] = ConnOutcome.exceptionAbort ∧
    appendsRecord (handle_connection [97, 98, 124, 124, 255]) = false := by
  have hfs1 : findSep [97, 124, 124, 98] = some 1 := by simp [findSep]
  have hfs2 : findSep [97, 98, 124, 124, 255] = some 2 := by simp [findSep]
  obtain ⟨hsep1, -, meta1, hmeta1, hok1, -⟩ :=
    (handle_connection_split [97, 124, 124, 98] (by simp)).2 1 hfs1
  obtain ⟨-, -, meta2, hmeta2, -, habort2⟩ :=
    (handle_connection_split [97, 98, 124, 124, 255] (by simp)).2 2 hfs2
  have hm1 : meta1 = [98] := by
    rw [hmeta1]
    norm_num [findSep]
  have hm2 : meta2 = [255] := by
    rw [hmeta2]
    norm_num [findSep]
  subst hm1
  subst hm2
  obtain ⟨he1, ha1⟩ := hok1 (by decide)
  obtain ⟨he2, ha2⟩ := habort2 (by decide)
  exact ⟨by simp, hfs1, hsep1, by decide, he1, ha1, by simp, hfs2, by decide, he2, ha2⟩

/-- Zero-padding of one packet to length `L` (fog_node.py, lines 264-271):
a packet shorter than `L` is extended with zero bytes; any other packet is
used unchanged. -/
def padTo (L : ℕ) (p : List ℕ) : List ℕ :=
  if p.length < L then p ++ List.replicate (L - p.length) 0 else p

/-- Maximum packet length within a coding group (fog_node.py, line 263). -/
def maxLen (group : List (List ℕ)) : ℕ :=
  (group.map List.length).foldr max 0

/-- Byte-wise XOR of two byte strings (`np.bitwise_xor` on equal-length
arrays). -/
def xorBytes (a b : List ℕ) : List ℕ :=
  List.zipWith (· ^^^ ·) a b

/-- XOR codeword of one coding group (fog_node.py, lines 262-275): all
packets are zero-padded to the group's maximum length and XOR-folded
starting from the first padded packet.  Groups formed by
`perform_network_coding` are never empty. -/
def encodeGroup (group : List (List ℕ)) : List ℕ :=
  match group.map (padTo (maxLen group)) with
  | [] => []
  | p :: rest => rest.foldl xorBytes p

/-- Embedding of `FogNode.perform_network_coding` (fog_node.py,
lines 248-280): an empty window yields the empty byte string; otherwise the
window is cut into `⌈W / dt⌉` contiguous groups of `dt` packets (the last
possibly shorter), each group is XOR-encoded, and the group codewords are
concatenated. -/
def perform_network_coding (packets : List (List ℕ)) (dt : ℕ) : List ℕ :=
  if packets = [] then []
  else
    ((List.range ((packets.length + dt - 1) / dt)).map
      (fun i => encodeGroup ((packets.drop (i * dt)).take dt))).flatten

/-- XOR of a list of byte strings of common length `L`, with the all-zero
string of that length as identity. -/
def xorAll (L : ℕ) (ps : List (List ℕ)) : List ℕ :=
  ps.foldr xorBytes (List.replicate L 0)

theorem length_padTo (L : ℕ) (p : List ℕ) (h : p.length ≤ L) :
    (padTo L p).length = L := by
  unfold padTo
  by_cases hl : p.length < L
  · simp [hl]
    omega
  · simp [hl]
    omega

theorem le_maxLen (group : List (List ℕ)) (p : List ℕ) (hp : p ∈ group) :
    p.length ≤ maxLen group := by
  unfold maxLen
  induction group with
  | nil => simp at hp
  | cons g gs ih =>
    rcases List.mem_cons.mp hp with rfl | hmem
    · exact le_max_left _ _
    · exact le_trans (ih hmem) (le_max_right _ _)

theorem length_xorBytes (a b : List ℕ) :
    (xorBytes a b).length = min a.length b.length := by
  simp [xorBytes]

theorem xorBytes_assoc (a b c : List ℕ) :
    xorBytes (xorBytes a b) c = xorBytes a (xorBytes b c) := by
  induction a generalizing b c with
  | nil => simp [xorBytes]
  | cons x t ih =>
    cases b with
    | nil => simp [xorBytes]
    | cons y u =>
      cases c with
      | nil => simp [xorBytes]
      | cons z v =>
        simp only [xorBytes, List.zipWith_cons_cons] at ih ⊢
        exact congrArg₂ _ (Nat.xor_assoc x y z) (ih u v)

theorem xorBytes_comm (a b : List ℕ) : xorBytes a b = xorBytes b a := by
  induction a generalizing b with
  | nil => cases b <;> simp [xorBytes]
  | cons x t ih =>
    cases b with
    | nil => simp [xorBytes]
    | cons y u =>
      simp only [xorBytes, List.zipWith_cons_cons] at ih ⊢
      exact congrArg₂ _ (Nat.xor_comm x y) (ih u)

theorem xorBytes_left_comm (a b c : List ℕ) :
    xorBytes a (xorBytes b c) = xorBytes b (xorBytes a c) := by
  rw [← xorBytes_assoc, xorBytes_comm a b, xorBytes_assoc]

theorem xorBytes_self (a : List ℕ) :
    xorBytes a a = List.replicate a.length 0 := by
  induction a with
  | nil => simp [xorBytes]
  | cons x t ih =>
    simp only [xorBytes] at ih
    simp [xorBytes, List.replicate_succ, Nat.xor_self, ih]

theorem xorBytes_zero_right (a : List ℕ) :
    xorBytes a (List.replicate a.length 0) = a := by
  induction a with
  | nil => simp [xorBytes]
  | cons x t ih =>
    simp only [xorBytes] at ih
    simp [xorBytes, List.replicate_succ, Nat.xor_zero, ih]

theorem length_xorAll (L : ℕ) (ps : List (List ℕ))
    (h : ∀ p ∈ ps, p.length = L) : (xorAll L ps).length = L := by
  induction ps with
  | nil => simp [xorAll]
  | cons p t ih =>
    have hp : p.length = L := h p (List.mem_cons_self p t)
    have ht := ih (fun q hq => h q (List.mem_cons_of_mem p hq))
    simp only [xorAll, List.foldr_cons] at ht ⊢
    rw [length_xorBytes, hp, ht, min_self]

theorem foldl_xorBytes_eq_xorAll (L : ℕ) :
    ∀ (rest : List (List ℕ)) (p : List ℕ), p.length = L →
    (∀ q ∈ rest, q.length = L) →
    rest.foldl xorBytes p = xorBytes p (xorAll L rest) := by
  intro rest
  induction rest with
  | nil =>
    intro p hp _
    simp only [List.foldl_nil, xorAll, List.foldr_nil]
    rw [← hp, xorBytes_zero_right]
  | cons q t ih =>
    intro p hp hq
    have hq0 : q.length = L := hq q (List.mem_cons_self q t)
    have hqt : ∀ r ∈ t, r.length = L := fun r hr => hq r (List.mem_cons_of_mem q hr)
    have hpq : (xorBytes p q).length = L := by
      rw [length_xorBytes, hp, hq0, min_self]
    simp only [List.foldl_cons]
    rw [ih (xorBytes p q) hpq hqt]
    show xorBytes (xorBytes p q) (xorAll L t) = xorBytes p (xorAll L (q :: t))
    rw [xorBytes_assoc]
    rfl

theorem xorAll_eraseIdx (L : ℕ) :
    ∀ (ps : List (List ℕ)) (j : ℕ), j < ps.length →
    xorAll L ps = xorBytes (ps.getD j []) (xorAll L (ps.eraseIdx j)) := by
  intro ps
  induction ps with
  | nil => intro j hj; simp at hj
  | cons p t ih =>
    intro j hj
    cases j with
    | zero => rfl
    | succ k =>
      have hk : k < t.length := by simpa using hj
      have step : xorAll L (p :: t) = xorBytes p (xorAll L t) := rfl
      rw [step, ih k hk]
      show xorBytes p (xorBytes (t.getD k []) (xorAll L (t.eraseIdx k))) =
        xorBytes ((p :: t).getD (k + 1) []) (xorAll L ((p :: t).eraseIdx (k + 1)))
      rw [List.getD_cons_succ, List.eraseIdx_cons_succ]
      rw [xorBytes_left_comm]
      rfl

theorem length_mem_padded (group : List (List ℕ)) :
    ∀ q ∈ group.map (padTo (maxLen group)), q.length = maxLen group := by
  intro q hq
  obtain ⟨p, hp, rfl⟩ := List.mem_map.mp hq
  exact length_padTo _ _ (le_maxLen group p hp)

theorem encodeGroup_eq_xorAll (group : List (List ℕ)) (hne : group ≠ []) :
    encodeGroup group = xorAll (maxLen group) (group.map (padTo (maxLen group))) := by
  cases group with
  | nil => exact absurd rfl hne
  | cons g gs =>
    have hlen := length_mem_padded (g :: gs)
    simp only [List.map_cons] at hlen ⊢
    have hhead : (padTo (maxLen (g :: gs)) g).length = maxLen (g :: gs) :=
      hlen _ (List.mem_cons_self _ _)
    have htail : ∀ q ∈ gs.map (padTo (maxLen (g :: gs))), q.length = maxLen (g :: gs) :=
      fun q hq => hlen q (List.mem_cons_of_mem _ hq)
    show (gs.map (padTo (maxLen (g :: gs)))).foldl xorBytes (padTo (maxLen (g :: gs)) g) = _
    rw [foldl_xorBytes_eq_xorAll (maxLen (g :: gs)) _ _ hhead htail]
    rfl

theorem length_encodeGroup (group : List (List ℕ)) (hne : group ≠ []) :
    (encodeGroup group).length = maxLen group := by
  rw [encodeGroup_eq_xorAll group hne]
  exact length_xorAll _ _ (length_mem_padded group)

/-- C5: for every non-empty window, every degree `d ∈ {2, 4, 6}` and every
coding group formed by `perform_network_coding`, XORing the group's
codeword with the XOR of the zero-padded forms of all but one of the
group's packets reconstructs the remaining packet, zero-padded to the
group's maximum length. -/
theorem network_coding_reconstruction (packets : List (List ℕ)) (dt : ℕ)
    (hne : packets ≠ []) (hdt : dt = 2 ∨ dt = 4 ∨ dt = 6)
    (i : ℕ) (hi : i < (packets.length + dt - 1) / dt)
    (group : List (List ℕ)) (hgrp : group = (packets.drop (i * dt)).take dt)
    (j : ℕ) (hj : j < group.length) :
    xorBytes (encodeGroup group)
        (xorAll (maxLen group) ((group.map (padTo (maxLen group))).eraseIdx j)) =
      (group.map (padTo (maxLen group))).getD j [] := by
  have hne2 : group ≠ [] := by
    intro h
    rw [h] at hj
    simp at hj
  have hlen := length_mem_padded group
  rw [encodeGroup_eq_xorAll group hne2]
  have hjP : j < (group.map (padTo (maxLen group))).length := by simpa using hj
  rw [xorAll_eraseIdx (maxLen group) _ j hjP]
  rw [xorBytes_assoc, xorBytes_self]
  have hR : (xorAll (maxLen group)
      ((group.map (padTo (maxLen group))).eraseIdx j)).length = maxLen group := by
    apply length_xorAll
    intro p hp
    exact hlen p ((List.eraseIdx_sublist _ j).subset hp)
  rw [hR]
  have hpj : ((group.map (padTo (maxLen group))).getD j []).length = maxLen group := by
    apply hlen
    rw [List.getD_eq_getElem _ _ hjP]
    exact List.getElem_mem _
  set pj := (group.map (padTo (maxLen group))).getD j [] with hpjdef
  rw [← hpj, xorBytes_zero_right]

/-- Witness for C5 at a concrete input: the window `[[1, 2], [3]]` with
degree `2` forms a single group; removing packet `0`, the codeword XORed
with the padded packet `1` gives back the padded packet `0`. -/
theorem network_coding_reconstruction_witness :
    ([[1, 2], [3]] : List (List ℕ)) ≠ [] ∧
    ((2 : ℕ) = 2 ∨ (2 : ℕ) = 4 ∨ (2 : ℕ) = 6) ∧
    0 < (([[1, 2], [3]] : List (List ℕ)).length + 2 - 1) / 2 ∧
    ([[1, 2], [3]] : List (List ℕ)) =
      (([[1, 2], [3]] : List (List ℕ)).drop (0 * 2)).take 2 ∧
    0 < ([[1, 2], [3]] : List (List ℕ)).length ∧
    xorBytes (encodeGroup [[1, 2], [3]])
        (xorAll (maxLen [[1, 2], [3]])
          (([[1, 2], [3]].map (padTo (maxLen [[1, 2], [3]]))).eraseIdx 0)) =
      ([[1, 2], [3]].map (padTo (maxLen [[1, 2], [3]]))).getD 0 [] :=
  ⟨by decide, by decide, by decide, by decide, by decide,
    network_coding_reconstruction [[1, 2], [3]] 2 (by decide) (by decide) 0
      (by decide) [[1, 2], [3]] (by decide) 0 (by decide)⟩

/-- C6: for every non-empty window and degree `d ∈ {2, 4, 6}`, the XOR
coder's output length is the sum over the `⌈W / d⌉` contiguous groups of
the maximum packet length within each group; an empty window yields the
empty byte string; a group with a single packet encodes to that packet
unchanged. -/
theorem perform_network_coding_length (packets : List (List ℕ)) (dt : ℕ)
    (hdt : dt = 2 ∨ dt = 4 ∨ dt = 6) :
    (packets ≠ [] →
      (perform_network_coding packets dt).length =
        ((List.range ((packets.length + dt - 1) / dt)).map
          (fun i => maxLen ((packets.drop (i * dt)).take dt))).sum) ∧
    perform_network_coding [] dt = [] ∧
    ∀ p : List ℕ, encodeGroup [p] = p := by
  have hdt0 : 0 < dt := by rcases hdt with rfl | rfl | rfl <;> norm_num
  refine ⟨?_, by simp [perform_network_coding], ?_⟩
  · intro hne
    unfold perform_network_coding
    rw [if_neg hne, List.length_flatten, List.map_map]
    congr 1
    apply List.map_congr_left
    intro i hi
    simp only [Function.comp_apply]
    apply length_encodeGroup
    have hiR : i + 1 ≤ (packets.length + dt - 1) / dt := List.mem_range.mp hi
    have h2 : (i + 1) * dt ≤ packets.length + dt - 1 :=
      (Nat.le_div_iff_mul_le hdt0).mp hiR
    have h3 : 0 < packets.length := List.length_pos.mpr hne
    rw [Nat.succ_mul] at h2
    have h4 : 0 < ((packets.drop (i * dt)).take dt).length := by
      rw [List.length_take, List.length_drop]
      omega
    exact List.length_pos.mp h4
  · intro p
    have hL : maxLen [p] = p.length := by simp [maxLen]
    simp [encodeGroup, hL, padTo]

/-- Witness for C6 at a concrete input: the window `[[1, 2], [3], [4, 5, 6]]`
with degree `2` has two groups of maximum lengths `2` and `3`, and the
coder's output has length `5`. -/
theorem perform_network_coding_length_witness :
    ((2 : ℕ) = 2 ∨ (2 : ℕ) = 4 ∨ (2 : ℕ) = 6) ∧
    ([[1, 2], [3], [4, 5, 6]] : List (List ℕ)) ≠ [] ∧
    (perform_network_coding [[1, 2], [3], [4, 5, 6]] 2).length =
      ((List.range ((([[1, 2], [3], [4, 5, 6]] : List (List ℕ)).length + 2 - 1) / 2)).map
        (fun i => maxLen ((([[1, 2], [3], [4, 5, 6]] : List (List ℕ)).drop (i * 2)).take 2))).sum :=
  ⟨by decide, by decide,
    (perform_network_coding_length [[1, 2], [3], [4, 5, 6]] 2 (by decide)).1 (by decide)⟩

/-- One schedulable item of the two-dimensional 0-1 knapsack: a real value
and two nonnegative integer costs; `process_sliding_window` builds them as
`(value, int(bw * 10), int(energy * 10))` (fog_node.py, lines 173-179). -/
structure KItem where
  value : ℚ
  cost_bw : ℕ
  cost_energy : ℕ
deriving DecidableEq

/-- Default item, used only to read `items[j]` at in-range indices. -/
def defaultKItem : KItem := ⟨0, 0, 0⟩

/-- The dynamic-programming table of `multi_dim_knapsack` (fog_node.py,
lines 290-303), read row by row: `DP[i][c1][c2]` equals `dpValR rev c1 c2`
where `rev` is the reversed list of the first `i` items, so the recursion
peels the row's own item and row `i` is computed from row `i - 1` exactly
as in the loop, with the strict `>` comparison of line 297. -/
def dpValR : List KItem → ℕ → ℕ → ℚ
  | [], _, _ => 0
  | it :: pre, c1, c2 =>
    if it.cost_bw ≤ c1 ∧ it.cost_energy ≤ c2 ∧
        dpValR pre c1 c2 < dpValR pre (c1 - it.cost_bw) (c2 - it.cost_energy) + it.value
    then dpValR pre (c1 - it.cost_bw) (c2 - it.cost_energy) + it.value
    else dpValR pre c1 c2

/-- The backtracking loop of `multi_dim_knapsack` (fog_node.py,
lines 304-313): walking rows from `n` down to `1`, item `i - 1` is selected
exactly when row `i`'s `keep` flag holds at the current capacities, and
then the capacities are reduced; row `i` of the reversed list has original
index `pre.length`, and the final `reverse` of the Python code corresponds
to appending on the right here. -/
def selectR : List KItem → ℕ → ℕ → List ℕ
  | [], _, _ => []
  | it :: pre, c1, c2 =>
    if it.cost_bw ≤ c1 ∧ it.cost_energy ≤ c2 ∧
        dpValR pre c1 c2 < dpValR pre (c1 - it.cost_bw) (c2 - it.cost_energy) + it.value
    then selectR pre (c1 - it.cost_bw) (c2 - it.cost_energy) ++ [pre.length]
    else selectR pre c1 c2

/-- The selected items themselves, in the same ascending order as the
indices returned by the backtracking loop. -/
def chosenR : List KItem → ℕ → ℕ → List KItem
  | [], _, _ => []
  | it :: pre, c1, c2 =>
    if it.cost_bw ≤ c1 ∧ it.cost_energy ≤ c2 ∧
        dpValR pre c1 c2 < dpValR pre (c1 - it.cost_bw) (c2 - it.cost_energy) + it.value
    then chosenR pre (c1 - it.cost_bw) (c2 - it.cost_energy) ++ [it]
    else chosenR pre c1 c2

/-- Embedding of `FogNode.multi_dim_knapsack` (fog_node.py, lines 282-315):
fill the DP table over the items in order and read the kept indices back
from the last row downwards; processing the reversed item list row by row
realizes exactly this table. -/
def multi_dim_knapsack (items : List KItem) (capacity1 capacity2 : ℕ) : List ℕ :=
  selectR items.reverse capacity1 capacity2

/-- Total value of a list of items. -/
def sumV (l : List KItem) : ℚ := (l.map KItem.value).sum

/-- Total first cost (bandwidth weight) of a list of items. -/
def sumW (l : List KItem) : ℕ := (l.map KItem.cost_bw).sum

/-- Total second cost (energy weight) of a list of items. -/
def sumE (l : List KItem) : ℕ := (l.map KItem.cost_energy).sum

theorem sumV_cons (x : KItem) (l : List KItem) : sumV (x :: l) = x.value + sumV l := by
  simp [sumV]

theorem sumW_cons (x : KItem) (l : List KItem) : sumW (x :: l) = x.cost_bw + sumW l := by
  simp [sumW]

theorem sumE_cons (x : KItem) (l : List KItem) : sumE (x :: l) = x.cost_energy + sumE l := by
  simp [sumE]

theorem sumV_append (a b : List KItem) : sumV (a ++ b) = sumV a + sumV b := by
  simp [sumV]

theorem sumW_append (a b : List KItem) : sumW (a ++ b) = sumW a + sumW b := by
  simp [sumW]

theorem sumE_append (a b : List KItem) : sumE (a ++ b) = sumE a + sumE b := by
  simp [sumE]

theorem sumV_reverse (l : List KItem) : sumV l.reverse = sumV l := by
  simp [sumV, List.map_reverse, List.sum_reverse]

theorem sumW_reverse (l : List KItem) : sumW l.reverse = sumW l := by
  simp [sumW, List.map_reverse, List.sum_reverse]

theorem sumE_reverse (l : List KItem) : sumE l.reverse = sumE l := by
  simp [sumE, List.map_reverse, List.sum_reverse]

theorem dpValR_cons_le (it : KItem) (pre : List KItem) (c1 c2 : ℕ) :
    dpValR pre c1 c2 ≤ dpValR (it :: pre) c1 c2 := by
  simp only [dpValR]
  split
  · rename_i h
    exact le_of_lt h.2.2
  · exact le_refl _

theorem dpValR_take_le (it : KItem) (pre : List KItem) (c1 c2 : ℕ)
    (hw : it.cost_bw ≤ c1) (he : it.cost_energy ≤ c2) :
    dpValR pre (c1 - it.cost_bw) (c2 - it.cost_energy) + it.value ≤
      dpValR (it :: pre) c1 c2 := by
  simp only [dpValR]
  split
  · exact le_refl _
  · rename_i h
    push_neg at h
    exact h hw he

theorem dpValR_mono : ∀ (l : List KItem) (c1 c2 c1' c2' : ℕ),
    c1 ≤ c1' → c2 ≤ c2' → dpValR l c1 c2 ≤ dpValR l c1' c2'
  | [], _, _, _, _, _, _ => le_refl 0
  | it :: pre, c1, c2, c1', c2', h1, h2 => by
    have hmono := dpValR_mono pre c1 c2 c1' c2' h1 h2
    have hmono2 := dpValR_mono pre (c1 - it.cost_bw) (c2 - it.cost_energy)
      (c1' - it.cost_bw) (c2' - it.cost_energy)
      (Nat.sub_le_sub_right h1 _) (Nat.sub_le_sub_right h2 _)
    by_cases h : it.cost_bw ≤ c1 ∧ it.cost_energy ≤ c2 ∧
        dpValR pre c1 c2 < dpValR pre (c1 - it.cost_bw) (c2 - it.cost_energy) + it.value
    · have hL : dpValR (it :: pre) c1 c2 =
          dpValR pre (c1 - it.cost_bw) (c2 - it.cost_energy) + it.value := by
        simp only [dpValR]
        rw [if_pos h]
      rw [hL]
      calc dpValR pre (c1 - it.cost_bw) (c2 - it.cost_energy) + it.value
          ≤ dpValR pre (c1' - it.cost_bw) (c2' - it.cost_energy) + it.value :=
            add_le_add_right hmono2 _
        _ ≤ dpValR (it :: pre) c1' c2' :=
            dpValR_take_le it pre c1' c2' (le_trans h.1 h1) (le_trans h.2.1 h2)
    · have hL : dpValR (it :: pre) c1 c2 = dpValR pre c1 c2 := by
        simp only [dpValR]
        rw [if_neg h]
      rw [hL]
      exact le_trans hmono (dpValR_cons_le it pre c1' c2')

theorem sumV_le_dpValR : ∀ (l : List KItem) (c1 c2 : ℕ) (s : List KItem),
    List.Sublist s l → sumW s ≤ c1 → sumE s ≤ c2 → sumV s ≤ dpValR l c1 c2
  | [], c1, c2, s, hs, _, _ => by
    rw [List.sublist_nil.mp hs]
    simp [sumV, dpValR]
  | it :: pre, c1, c2, s, hs, hw, he => by
    rcases List.sublist_cons_iff.mp hs with h | ⟨t, rfl, ht⟩
    · exact le_trans (sumV_le_dpValR pre c1 c2 s h hw he) (dpValR_cons_le it pre c1 c2)
    · rw [sumW_cons] at hw
      rw [sumE_cons] at he
      have hw1 : it.cost_bw ≤ c1 := by omega
      have he1 : it.cost_energy ≤ c2 := by omega
      have IH := sumV_le_dpValR pre (c1 - it.cost_bw) (c2 - it.cost_energy) t ht
        (by omega) (by omega)
      rw [sumV_cons]
      calc it.value + sumV t
          ≤ it.value + dpValR pre (c1 - it.cost_bw) (c2 - it.cost_energy) :=
            add_le_add_left IH _
        _ = dpValR pre (c1 - it.cost_bw) (c2 - it.cost_energy) + it.value := add_comm _ _
        _ ≤ dpValR (it :: pre) c1 c2 := dpValR_take_le it pre c1 c2 hw1 he1

theorem chosenR_sublist : ∀ (l : List KItem) (c1 c2 : ℕ),
    List.Sublist (chosenR l c1 c2) l.reverse
  | [], _, _ => List.nil_sublist []
  | it :: pre, c1, c2 => by
    simp only [chosenR, List.reverse_cons]
    split
    · exact List.Sublist.append (chosenR_sublist pre _ _) (List.Sublist.refl [it])
    · exact (chosenR_sublist pre c1 c2).trans (List.sublist_append_left _ _)

theorem chosenR_costs : ∀ (l : List KItem) (c1 c2 : ℕ),
    sumW (chosenR l c1 c2) ≤ c1 ∧ sumE (chosenR l c1 c2) ≤ c2
  | [], _, _ => by simp [chosenR, sumW, sumE]
  | it :: pre, c1, c2 => by
    by_cases h : it.cost_bw ≤ c1 ∧ it.cost_energy ≤ c2 ∧
        dpValR pre c1 c2 < dpValR pre (c1 - it.cost_bw) (c2 - it.cost_energy) + it.value
    · obtain ⟨IH1, IH2⟩ := chosenR_costs pre (c1 - it.cost_bw) (c2 - it.cost_energy)
      simp only [chosenR, if_pos h]
      rw [sumW_append, sumE_append]
      have hsw : sumW [it] = it.cost_bw := by simp [sumW]
      have hse : sumE [it] = it.cost_energy := by simp [sumE]
      rw [hsw, hse]
      constructor
      · have := h.1
        omega
      · have := h.2.1
        omega
    · simp only [chosenR, if_neg h]
      exact chosenR_costs pre c1 c2

theorem sumV_chosenR : ∀ (l : List KItem) (c1 c2 : ℕ),
    sumV (chosenR l c1 c2) = dpValR l c1 c2
  | [], _, _ => by simp [chosenR, dpValR, sumV]
  | it :: pre, c1, c2 => by
    by_cases h : it.cost_bw ≤ c1 ∧ it.cost_energy ≤ c2 ∧
        dpValR pre c1 c2 < dpValR pre (c1 - it.cost_bw) (c2 - it.cost_energy) + it.value
    · simp only [chosenR, dpValR, if_pos h]
      rw [sumV_append, sumV_chosenR pre _ _, sumV_cons]
      simp [sumV]
    · simp only [chosenR, dpValR, if_neg h]
      exact sumV_chosenR pre c1 c2

theorem selectR_lt : ∀ (l : List KItem) (c1 c2 : ℕ) (j : ℕ),
    j ∈ selectR l c1 c2 → j < l.length
  | [], _, _, j, hj => by simp [selectR] at hj
  | it :: pre, c1, c2, j, hj => by
    by_cases h : it.cost_bw ≤ c1 ∧ it.cost_energy ≤ c2 ∧
        dpValR pre c1 c2 < dpValR pre (c1 - it.cost_bw) (c2 - it.cost_energy) + it.value
    · simp only [selectR, if_pos h, List.mem_append, List.mem_singleton] at hj
      rcases hj with hj | rfl
      · have := selectR_lt pre _ _ j hj
        simp only [List.length_cons]
        omega
      · simp only [List.length_cons]
        omega
    · simp only [selectR, if_neg h] at hj
      have := selectR_lt pre c1 c2 j hj
      simp only [List.length_cons]
      omega

theorem selectR_sorted : ∀ (l : List KItem) (c1 c2 : ℕ),
    (selectR l c1 c2).Pairwise (· < ·)
  | [], _, _ => by simp [selectR]
  | it :: pre, c1, c2 => by
    by_cases h : it.cost_bw ≤ c1 ∧ it.cost_energy ≤ c2 ∧
        dpValR pre c1 c2 < dpValR pre (c1 - it.cost_bw) (c2 - it.cost_energy) + it.value
    · simp only [selectR, if_pos h]
      apply List.pairwise_append.mpr
      refine ⟨selectR_sorted pre _ _, List.pairwise_singleton _ _, ?_⟩
      intro a ha b hb
      rw [List.mem_singleton] at hb
      subst hb
      exact selectR_lt pre _ _ a ha
    · simp only [selectR, if_neg h]
      exact selectR_sorted pre c1 c2

theorem selectR_map_getD : ∀ (l : List KItem) (c1 c2 : ℕ),
    (selectR l c1 c2).map (fun j => l.reverse.getD j defaultKItem) = chosenR l c1 c2
  | [], _, _ => rfl
  | it :: pre, c1, c2 => by
    by_cases h : it.cost_bw ≤ c1 ∧ it.cost_energy ≤ c2 ∧
        dpValR pre c1 c2 < dpValR pre (c1 - it.cost_bw) (c2 - it.cost_energy) + it.value
    · simp only [selectR, chosenR, if_pos h, List.reverse_cons, List.map_append]
      congr 1
      · calc (selectR pre (c1 - it.cost_bw) (c2 - it.cost_energy)).map
              (fun j => (pre.reverse ++ [it]).getD j defaultKItem)
            = (selectR pre (c1 - it.cost_bw) (c2 - it.cost_energy)).map
              (fun j => pre.reverse.getD j defaultKItem) := by
              apply List.map_congr_left
              intro j hj
              have hjlt : j < pre.length := selectR_lt pre _ _ j hj
              exact List.getD_append _ _ _ _ (by simpa using hjlt)
          _ = chosenR pre (c1 - it.cost_bw) (c2 - it.cost_energy) :=
              selectR_map_getD pre _ _
      · simp only [List.map_cons, List.map_nil]
        have hlen : pre.reverse.length ≤ pre.length := by simp
        rw [List.getD_append_right _ _ _ _ hlen]
        simp
    · simp only [selectR, chosenR, if_neg h, List.reverse_cons]
      calc (selectR pre c1 c2).map (fun j => (pre.reverse ++ [it]).getD j defaultKItem)
          = (selectR pre c1 c2).map (fun j => pre.reverse.getD j defaultKItem) := by
            apply List.map_congr_left
            intro j hj
            have hjlt : j < pre.length := selectR_lt pre _ _ j hj
            exact List.getD_append _ _ _ _ (by simpa using hjlt)
        _ = chosenR pre c1 c2 := selectR_map_getD pre _ _

/-- C1: for every item list (real value, two nonnegative integer costs) and
capacities, `multi_dim_knapsack` returns a strictly increasing list of
indices into the items whose two cost sums respect the capacities, and
whose total value is maximal among all subsets (sublists) of the items
satisfying both capacity constraints. -/
theorem multi_dim_knapsack_correct (items : List KItem) (capacity1 capacity2 : ℕ) :
    (multi_dim_knapsack items capacity1 capacity2).Pairwise (· < ·) ∧
    (∀ j ∈ multi_dim_knapsack items capacity1 capacity2, j < items.length) ∧
    ((multi_dim_knapsack items capacity1 capacity2).map
      (fun j => (items.getD j defaultKItem).cost_bw)).sum ≤ capacity1 ∧
    ((multi_dim_knapsack items capacity1 capacity2).map
      (fun j => (items.getD j defaultKItem).cost_energy)).sum ≤ capacity2 ∧
    ∀ sub : List KItem, List.Sublist sub items →
      sumW sub ≤ capacity1 → sumE sub ≤ capacity2 →
      sumV sub ≤ ((multi_dim_knapsack items capacity1 capacity2).map
        (fun j => (items.getD j defaultKItem).value)).sum := by
  have hmap : (multi_dim_knapsack items capacity1 capacity2).map
      (fun j => items.getD j defaultKItem) =
      chosenR items.reverse capacity1 capacity2 := by
    have h := selectR_map_getD items.reverse capacity1 capacity2
    rwa [List.reverse_reverse] at h
  refine ⟨selectR_sorted items.reverse capacity1 capacity2, ?_, ?_, ?_, ?_⟩
  · intro j hj
    have h := selectR_lt items.reverse capacity1 capacity2 j hj
    rwa [List.length_reverse] at h
  · have key := (chosenR_costs items.reverse capacity1 capacity2).1
    rw [← hmap, sumW, List.map_map] at key
    exact key
  · have key := (chosenR_costs items.reverse capacity1 capacity2).2
    rw [← hmap, sumE, List.map_map] at key
    exact key
  · intro sub hsub hw he
    have h1 : List.Sublist sub.reverse items.reverse := hsub.reverse
    have h2 := sumV_le_dpValR items.reverse capacity1 capacity2 sub.reverse h1
      (by rwa [sumW_reverse]) (by rwa [sumE_reverse])
    have h3 : sumV ((multi_dim_knapsack items capacity1 capacity2).map
        (fun j => items.getD j defaultKItem)) =
        ((multi_dim_knapsack items capacity1 capacity2).map
          (fun j => (items.getD j defaultKItem).value)).sum := by
      rw [sumV, List.map_map]
      rfl
    rw [sumV_reverse, ← sumV_chosenR items.reverse capacity1 capacity2, ← hmap, h3] at h2
    exact h2

/-- Witness for C1 at a concrete input: with items `(5, 1, 1)` and
`(3, 1, 1)` and capacities `(1, 1)`, the feasible subset holding only the
second item has total value at most that of the scheduler's selection. -/
theorem multi_dim_knapsack_correct_witness :
    List.Sublist [(⟨3, 1, 1⟩ : KItem)] [⟨5, 1, 1⟩, ⟨3, 1, 1⟩] ∧
    sumW [(⟨3, 1, 1⟩ : KItem)] ≤ 1 ∧ sumE [(⟨3, 1, 1⟩ : KItem)] ≤ 1 ∧
    sumV [(⟨3, 1, 1⟩ : KItem)] ≤
      ((multi_dim_knapsack [⟨5, 1, 1⟩, ⟨3, 1, 1⟩] 1 1).map
        (fun j => (([⟨5, 1, 1⟩, ⟨3, 1, 1⟩] : List KItem).getD j defaultKItem).value)).sum := by
  have hsub : List.Sublist [(⟨3, 1, 1⟩ : KItem)] [⟨5, 1, 1⟩, ⟨3, 1, 1⟩] :=
    List.sublist_cons_self _ _
  have hw : sumW [(⟨3, 1, 1⟩ : KItem)] ≤ 1 := by simp [sumW]
  have he : sumE [(⟨3, 1, 1⟩ : KItem)] ≤ 1 := by simp [sumE]
  exact ⟨hsub, hw, he,
    (multi_dim_knapsack_correct [⟨5, 1, 1⟩, ⟨3, 1, 1⟩] 1 1).2.2.2.2 _ hsub hw he⟩

theorem chosenR_pos_value : ∀ (l : List KItem) (c1 c2 : ℕ) (x : KItem),
    x ∈ chosenR l c1 c2 → 0 < x.value
  | [], _, _, x, hx => by simp [chosenR] at hx
  | it :: pre, c1, c2, x, hx => by
    by_cases h : it.cost_bw ≤ c1 ∧ it.cost_energy ≤ c2 ∧
        dpValR pre c1 c2 < dpValR pre (c1 - it.cost_bw) (c2 - it.cost_energy) + it.value
    · simp only [chosenR, if_pos h, List.mem_append, List.mem_singleton] at hx
      rcases hx with hx | rfl
      · exact chosenR_pos_value pre _ _ x hx
      · have hm : dpValR pre (c1 - x.cost_bw) (c2 - x.cost_energy) ≤ dpValR pre c1 c2 :=
          dpValR_mono pre _ _ _ _ (Nat.sub_le _ _) (Nat.sub_le _ _)
        have hlt := h.2.2
        linarith
    · simp only [chosenR, if_neg h] at hx
      exact chosenR_pos_value pre c1 c2 x hx

/-- C7: the strict `>` comparison of the DP prefers skipping on equal
objective, so no selected index points to an item whose value is
non-positive (in particular none with negative value): every selected item
has strictly positive value. -/
theorem multi_dim_knapsack_pos (items : List KItem) (capacity1 capacity2 : ℕ) :
    ∀ j ∈ multi_dim_knapsack items capacity1 capacity2,
      0 < (items.getD j defaultKItem).value := by
  intro j hj
  have hmap : (multi_dim_knapsack items capacity1 capacity2).map
      (fun j => items.getD j defaultKItem) =
      chosenR items.reverse capacity1 capacity2 := by
    have h := selectR_map_getD items.reverse capacity1 capacity2
    rwa [List.reverse_reverse] at h
  have hmem : items.getD j defaultKItem ∈ chosenR items.reverse capacity1 capacity2 := by
    rw [← hmap]
    exact List.mem_map_of_mem _ hj
  exact chosenR_pos_value items.reverse capacity1 capacity2 _ hmem

/-- Witness for C7 at a concrete input: with the single item `(5, 1, 1)`
and capacities `(2, 2)` the scheduler selects index `0`, whose value `5` is
strictly positive. -/
theorem multi_dim_knapsack_pos_witness :
    0 ∈ multi_dim_knapsack [⟨5, 1, 1⟩] 2 2 ∧
    0 < (([⟨5, 1, 1⟩] : List KItem).getD 0 defaultKItem).value := by
  have hmem : 0 ∈ multi_dim_knapsack [⟨5, 1, 1⟩] 2 2 := by
    norm_num [multi_dim_knapsack, selectR, dpValR]
  exact ⟨hmem, multi_dim_knapsack_pos [⟨5, 1, 1⟩] 2 2 0 hmem⟩
